import Mathlib

/-!
Verification of the resource/file-streaming subsystem of the repository
(module `hikari/files.py`).  Python functions and classes are shallowly
embedded as Lean definitions: bytes are `List Nat` (each element `< 256`),
strings are Lean `String`/`List Char`, fallible code returns `Except String`,
and the two kinds of reader context-manager are modelled as explicit state
machines.  Standard-library facilities used by the source (`base64`,
`mimetypes`, `urllib`, `pathlib`, the filesystem) are modelled by executable
Lean functions that follow the documented stdlib behaviour on the inputs the
source feeds them.
-/

namespace HikariFiles

/-- Chunk re-buffering target used by the readers: `_MAGIC = 50 * 1024` bytes. -/
def _MAGIC : Nat := 50 * 1024

/-- Fixed filename tag for spoiler marking: `SPOILER_TAG = "SPOILER_"`. -/
def SPOILER_TAG : String := "SPOILER_"

/-- Boolean test that `p` is a prefix of `l` (models Python `str.startswith`
and `bytes.startswith` at the list level). -/
def hasPref {α : Type} [BEq α] : List α → List α → Bool
  | [], _ => true
  | _ :: _, [] => false
  | p :: ps, x :: xs => p == x && hasPref ps xs

/-- Boolean test that `p` is a suffix of `l` (models Python `str.endswith`). -/
def hasSuf {α : Type} [BEq α] (p l : List α) : Bool :=
  hasPref p.reverse l.reverse

/-- Splits a list at the first occurrence of element `c`, returning the parts
before and after it (models Python `str.split(c, 1)` / `str.find`). -/
def splitFirst {α : Type} [BEq α] (c : α) : List α → Option (List α × List α)
  | [] => none
  | x :: xs =>
    if x == c then some ([], xs)
    else
      match splitFirst c xs with
      | some (a, b) => some (x :: a, b)
      | none => none

/-- Suffix of `l` strictly after the last occurrence of `c`, or `none` when
`c` does not occur (the third component of Python `str.rpartition`). -/
def afterLast {α : Type} [BEq α] (c : α) : List α → Option (List α)
  | [] => none
  | x :: xs =>
    match afterLast c xs with
    | some r => some r
    | none => if x == c then some xs else none

/-- Splits a list at the first occurrence of the subsequence `sep`, returning
the parts before and after it (models Python `str.split(sep, 1)`). -/
def splitFirstSeq {α : Type} [BEq α] (sep : List α) : List α → Option (List α × List α)
  | [] => none
  | x :: xs =>
    if hasPref sep (x :: xs) then some ([], (x :: xs).drop sep.length)
    else
      match splitFirstSeq sep xs with
      | some (a, b) => some (x :: a, b)
      | none => none

/-!  ## Base64 (models the Python `base64` module as used by the source)

`to_data_uri` uses `base64.b64encode`; `Bytes.from_data_uri` decodes through
the data-URI handler of `urllib.request.urlopen`, which base64-decodes the payload.
The model below implements standard RFC 4648 base64 with `=` padding, which is
exactly what `b64encode` emits and what the decoder accepts on such input. -/

/-- Alphabet of standard base64. -/
def b64alphabet : List Char :=
  "ABCDEFGHIJKLMNOPQRSTUVWXYZabcdefghijklmnopqrstuvwxyz0123456789+/".toList

/-- Character for a 6-bit group. -/
def encodeB64Char (n : Nat) : Char := b64alphabet.getD n '?'

/-- Inverse lookup of `encodeB64Char`; `none` for non-alphabet characters. -/
def decodeB64Char (c : Char) : Option Nat := b64alphabet.indexOf? c

/-- Base64-encodes a byte list (models `base64.b64encode`). -/
def b64encode : List Nat → List Char
  | [] => []
  | [a] => [encodeB64Char (a / 4), encodeB64Char (a % 4 * 16), '=', '=']
  | [a, b] =>
      [encodeB64Char (a / 4), encodeB64Char (a % 4 * 16 + b / 16),
       encodeB64Char (b % 16 * 4), '=']
  | a :: b :: c :: rest =>
      encodeB64Char (a / 4) :: encodeB64Char (a % 4 * 16 + b / 16) ::
      encodeB64Char (b % 16 * 4 + c / 64) :: encodeB64Char (c % 64) ::
      b64encode rest

/-- Base64-decodes a character list (models the decoding performed by the
data-URI handler on canonical padded base64; malformed input errors). -/
def b64decode : List Char → Except String (List Nat)
  | [] => .ok []
  | c1 :: c2 :: c3 :: c4 :: rest =>
    match decodeB64Char c1, decodeB64Char c2 with
    | some v1, some v2 =>
      if c3 == '=' && c4 == '=' && rest.isEmpty then .ok [v1 * 4 + v2 / 16]
      else
        match decodeB64Char c3 with
        | some v3 =>
          if c4 == '=' && rest.isEmpty then
            .ok [v1 * 4 + v2 / 16, v2 % 16 * 16 + v3 / 4]
          else
            match decodeB64Char c4 with
            | some v4 =>
              match b64decode rest with
              | .ok tail =>
                  .ok ((v1 * 4 + v2 / 16) :: (v2 % 16 * 16 + v3 / 4) ::
                       (v3 % 4 * 64 + v4) :: tail)
              | .error e => .error e
            | none => .error "Invalid base64 character"
        | none => .error "Invalid base64 character"
    | _, _ => .error "Invalid base64 character"
  | _ => .error "Invalid base64 padding"

/-- Does character `c` occur in `l`?  (Python `c in s`.) -/
def hasChar (c : Char) (l : List Char) : Bool := l.any (fun x => x == c)

/-!  ## MIME and filename helpers (`guess_mimetype_from_data`,
`guess_mimetype_from_filename`, `guess_file_extension`,
`generate_filename_from_details`) -/

/-- Sniffs a mimetype from leading bytes; models `guess_mimetype_from_data`,
which recognises only the PNG, JPEG (Exif/JFIF at offset 6), GIF87a/GIF89a and
RIFF/WEBP signatures. -/
def guess_mimetype_from_data (data : List Nat) : Option String :=
  if hasPref [137, 80, 78, 71, 13, 10, 26, 10] data then some "image/png"
  else if hasPref [69, 120, 105, 102] (data.drop 6)
      || hasPref [74, 70, 73, 70] (data.drop 6) then some "image/jpeg"
  else if hasPref [71, 73, 70, 56, 55, 97] data
      || hasPref [71, 73, 70, 56, 57, 97] data then some "image/gif"
  else if hasPref [82, 73, 70, 70] data
      && hasPref [87, 69, 66, 80] (data.drop 8) then some "image/webp"
  else none

/-- Fixed subset of the Python `mimetypes` registry, keyed on the lowercased
final extension (with its dot); models the stdlib table the source consults. -/
def types_map : List (String × String) :=
  [(".png", "image/png"), (".jpg", "image/jpeg"), (".jpeg", "image/jpeg"),
   (".gif", "image/gif"), (".webp", "image/webp"), (".txt", "text/plain"),
   (".json", "application/json"), (".html", "text/html")]

/-- Extension-based mimetype lookup; models `guess_mimetype_from_filename`
(which defers to `mimetypes.guess_type`): `none` when no match. -/
def guess_mimetype_from_filename (name : String) : Option String :=
  match afterLast '.' name.toList with
  | none => none
  | some ext =>
    (types_map.find? (fun e => e.1 == String.mk ('.' :: ext.map Char.toLower))).map
      (fun e => e.2)

/-- Inverse extension lookup; models `guess_file_extension` (which defers to
`mimetypes.guess_extension`): the extension with its leading dot, or `none`. -/
def guess_file_extension (mimetype : String) : Option String :=
  (types_map.find? (fun e => e.2 == mimetype)).map (fun e => e.1)

/-- Quasi-unique filename generation; models `generate_filename_from_details`.
The source uses `time.uuid()` (a time-based token) as the stem; the model takes
that nondeterministic token as the explicit argument `uuid`. -/
def generate_filename_from_details (mimetype : Option String)
    (extension : Option String) (data : Option (List Nat)) (uuid : String) :
    String :=
  let mt : Option String :=
    match mimetype, data with
    | none, some d => guess_mimetype_from_data d
    | mt, _ => mt
  let ext : Option String :=
    match extension, mt with
    | none, some m => guess_file_extension m
    | e, _ => e
  let extStr : String :=
    match ext with
    | none => ""
    | some e =>
      if e.isEmpty then ""
      else if hasPref ['.'] e.toList then e else "." ++ e
  uuid ++ extStr

/-!  ## Path and URL helpers (model `pathlib.PurePath.name`,
`urllib.parse.urlparse(...).path` and `os.path.basename` as used on plain
POSIX-style paths and absolute http(s) URLs) -/

/-- Splits a character list on every occurrence of `c` (Python `str.split`). -/
def splitOnChar (c : Char) : List Char → List (List Char)
  | [] => [[]]
  | x :: xs =>
    let r := splitOnChar c xs
    if x == c then [] :: r
    else
      match r with
      | [] => [[x]]
      | y :: ys => (x :: y) :: ys

/-- Final component of a POSIX-style path; models `pathlib.PurePath(p).name`
for ordinary paths (the stdlib special-casing of lone `.`/`..` components is
not reproduced; no claim exercises it). -/
def pathName (p : String) : String :=
  String.mk (((splitOnChar '/' p.toList).filter (fun s => !s.isEmpty)).getLastD [])

/-- Path component of an absolute URL; models
`urllib.parse.urlparse(url).path` for http(s) URLs. -/
def url_path (url : String) : String :=
  match splitFirstSeq "://".toList url.toList with
  | none => String.mk (url.toList.takeWhile (fun c => c != '?' && c != '#'))
  | some (_, rest) =>
    let afterHost := rest.dropWhile (fun c => c != '/' && c != '?' && c != '#')
    String.mk (afterHost.takeWhile (fun c => c != '?' && c != '#'))

/-- Suffix after the last slash; models `os.path.basename`. -/
def basename (p : String) : String :=
  match afterLast '/' p.toList with
  | some r => String.mk r
  | none => p

/-!  ## The data model: chunk values, byte sources, resource variants -/

/-- Value yielded by a user-supplied chunk iterator, as seen by
`IteratorReader._assert_bytes`: a Python `bytes`, a Python `str`, or any other
object (carrying only its type name, which is all the code inspects). -/
inductive PyChunk : Type
  | bytes (bs : List Nat)
  | str (s : String)
  | other (typeName : String)
deriving DecidableEq

/-- Data held by a `Bytes` resource (`Bytes.data`): either a flat byte buffer
or a lazy chunk producer (`LazyByteIteratorish`). -/
inductive ByteSource : Type
  | flat (bs : List Nat)
  | lazy (chunks : List PyChunk)
deriving DecidableEq

/-- State of a `hikari.files.Bytes` resource after `Bytes.__init__`:
`data`, the stored `_filename`, the `mimetype` attribute, `is_spoiler`. -/
structure BytesRes : Type where
  data : ByteSource
  fname : String
  mimetype : Option String
  is_spoiler : Bool
deriving DecidableEq

/-- Models `Bytes.__init__`: raw data is unwrapped to bytes up front (the
model receives it already unwrapped), and a missing mimetype is inferred from
the filename, defaulting to `text/plain;charset=UTF-8`. -/
def mkBytes (data : ByteSource) (filename : String) (mimetype : Option String)
    (spoiler : Bool) : BytesRes :=
  let mt : Option String :=
    match mimetype with
    | some m => some m
    | none =>
      match guess_mimetype_from_filename filename with
      | some g => some g
      | none => some "text/plain;charset=UTF-8"
  ⟨data, filename, mt, spoiler⟩

/-- State of a `hikari.files.File` resource: `path`, the stored `_filename`
(`none` when not given), `is_spoiler`. -/
structure FileRes : Type where
  path : String
  fname : Option String
  is_spoiler : Bool
deriving DecidableEq

/-- State of a `hikari.files.URL` resource: `_url` and the optional
`_filename`. -/
structure URLRes : Type where
  url : String
  fname : Option String
deriving DecidableEq

/-- The closed set of `Resource` variants in the module. -/
inductive Res : Type
  | web (u : URLRes)
  | file (f : FileRes)
  | inmem (b : BytesRes)
deriving DecidableEq

/-- Models `File.filename`: the stored name when truthy (non-`None`,
non-empty), else the final path component; prefixed with `SPOILER_TAG` when
`is_spoiler`. -/
def fileFilename (f : FileRes) : String :=
  let base :=
    match f.fname with
    | some s => if s.isEmpty then pathName f.path else s
    | none => pathName f.path
  if f.is_spoiler then SPOILER_TAG ++ base else base

/-- Models `Bytes.filename`: the stored name, prefixed with `SPOILER_TAG` when
`is_spoiler`. -/
def bytesFilename (b : BytesRes) : String :=
  if b.is_spoiler then SPOILER_TAG ++ b.fname else b.fname

/-- Models `URL.filename`: the stored name when truthy, else the basename of
the parsed URL path. -/
def urlFilename (u : URLRes) : String :=
  match u.fname with
  | some s => if s.isEmpty then basename (url_path u.url) else s
  | none => basename (url_path u.url)

/-- The `filename` property of each variant. -/
def resFilename : Res → String
  | .web u => urlFilename u
  | .file f => fileFilename f
  | .inmem b => bytesFilename b

/-- The `url` property of each variant: `URL.url` returns the stored URL;
`File.url` and `Bytes.url` return `attachment://` + filename. -/
def resUrl : Res → String
  | .web u => u.url
  | .file f => "attachment://" ++ fileFilename f
  | .inmem b => "attachment://" ++ bytesFilename b

/-- Python class name of each variant (`self.__class__`), which participates
in `Resource.__hash__`. -/
def resClass : Res → String
  | .web _ => "URL"
  | .file _ => "File"
  | .inmem _ => "Bytes"

/-- Models `Resource.__eq__`: for two resources, equality compares `url` only
(non-`Resource` operands, which compare unequal, are outside the model). -/
def res_eq (r1 r2 : Res) : Bool := resUrl r1 == resUrl r2

/-- Models the tuple `(self.__class__, self.url)` that `Resource.__hash__`
feeds to the Python `hash` builtin; the hash value is a function of exactly this pair. -/
def res_hash_input (r : Res) : String × String := (resClass r, resUrl r)

/-- Models `Resource.extension`: `rpartition` the filename on the last dot and
return the part after it, or `None` when that part equals the whole name
(i.e. no dot was found). -/
def extension_of (filename : String) : Option String :=
  let ext : List Char :=
    match afterLast '.' filename.toList with
    | some r => r
    | none => filename.toList
  if ext == filename.toList then none else some (String.mk ext)

/-- The `extension` property of a resource. -/
def resExtension (r : Res) : Option String := extension_of (resFilename r)

/-!  ## Data URIs (`to_data_uri`, `Bytes.from_data_uri`) -/

/-- Models `to_data_uri`: guesses the mimetype from the data when not given
(raising `TypeError` when that fails), then emits
`data:<mimetype>;base64,<b64>`. -/
def to_data_uri (data : List Nat) (mimetype : Option String) :
    Except String (List Char) :=
  let mt : Option String :=
    match mimetype with
    | some m => some m
    | none => guess_mimetype_from_data data
  match mt with
  | none => .error "Cannot infer mimetype from input data, specify it manually."
  | some m =>
    .ok ("data:".toList ++ (m.toList ++ (";base64,".toList ++ b64encode data)))

/-- Models `mimetypes.guess_type` on a `data:` URL (the only shape
`from_data_uri` feeds it): the mediatype before the first `;` (or `,`),
replaced by `text/plain` when it contains `=` or lacks `/`. -/
def guess_type_data_uri (uri : List Char) : Option String :=
  let rest := uri.drop 5
  match splitFirst ',' rest with
  | none => none
  | some (preComma, _) =>
    let ty : List Char :=
      match splitFirst ';' preComma with
      | some (t, _) => t
      | none => preComma
    let ty := if hasChar '=' ty || !(hasChar '/' ty) then "text/plain".toList else ty
    some (String.mk ty)

/-- Models `Bytes.from_data_uri`: validates the `data:` scheme, then decodes
via the stdlib data-URI handler — split the remainder at the first comma; when
the mediatype ends in `;base64` the payload is base64-decoded, otherwise it is
taken as raw bytes (percent-unquoting is elided; no claim input contains `%`).
Any decode failure becomes the single error `Failed to decode data URI`
(`ValueError` in the source).  A missing filename is generated from the
guessed mimetype and the decoded data. -/
def from_data_uri (data_uri : List Char) (filename : Option String)
    (uuid : String) : Except String BytesRes :=
  if !(hasPref "data:".toList data_uri) then .error "Invalid data URI passed"
  else
    match splitFirst ',' (data_uri.drop 5) with
    | none => .error "Failed to decode data URI"
    | some (mediatype, payload) =>
      let decoded : Except String (List Nat) :=
        if hasSuf ";base64".toList mediatype then
          match b64decode payload with
          | .ok d => .ok d
          | .error _ => .error "Failed to decode data URI"
        else .ok (payload.map Char.toNat)
      match decoded with
      | .error e => .error e
      | .ok data =>
        let mimetype := guess_type_data_uri data_uri
        let fname :=
          match filename with
          | some f => f
          | none => generate_filename_from_details mimetype none (some data) uuid
        .ok (mkBytes (.flat data) fname mimetype false)

/-!  ## Resource normalization (`ensure_resource`) -/

/-- Argument surface of `ensure_resource` (`Resourceish`): an existing
resource, raw byte-like data (already unwrapped by `unwrap_bytes`), or a
string/path-like value (already passed through `str`). -/
inductive ResourceInput : Type
  | res (r : Res)
  | raw (data : List Nat)
  | pathish (s : String)
deriving DecidableEq

/-- Models `ensure_resource`: an existing `Resource` is returned unchanged;
raw bytes become a `Bytes` with a generated filename; a string with an
http(s) scheme becomes a `URL`; a `data:` string is decoded with
`Bytes.from_data_uri`, falling through to path treatment on `ValueError`;
anything else becomes a `File` named after the final path component. -/
def ensure_resource (x : ResourceInput) (uuid : String) : Res :=
  match x with
  | .res r => r
  | .raw data =>
    .inmem (mkBytes (.flat data)
      (generate_filename_from_details none none (some data) uuid) none false)
  | .pathish s =>
    if hasPref "https://".toList s.toList || hasPref "http://".toList s.toList then
      .web ⟨s, none⟩
    else if hasPref "data:".toList s.toList then
      match from_data_uri s.toList none uuid with
      | .ok b => .inmem b
      | .error _ => .file ⟨s, some (pathName s), false⟩
    else
      .file ⟨s, some (pathName s), false⟩

/-!  ## IteratorReader (`_assert_bytes`, `_wrap_iter`, `__aiter__`) -/

/-- Standard UTF-8 encoding of one character (1 to 4 bytes), as performed by
Python `bytes(data, "utf-8")`. -/
def utf8EncodeChar (c : Char) : List Nat :=
  let n := c.toNat
  if n < 128 then [n]
  else if n < 2048 then [192 + n / 64, 128 + n % 64]
  else if n < 65536 then [224 + n / 4096, 128 + n / 64 % 64, 128 + n % 64]
  else [240 + n / 262144, 128 + n / 4096 % 64, 128 + n / 64 % 64, 128 + n % 64]

/-- UTF-8 encoding of a string. -/
def utf8Encode (s : String) : List Nat := (s.data.map utf8EncodeChar).flatten

/-- Models `IteratorReader._assert_bytes`: a `str` chunk is encoded as UTF-8,
a `bytes` chunk passes through, anything else raises
`TypeError(f"Expected bytes but received " + type name)`. -/
def _assert_bytes : PyChunk → Except String (List Nat)
  | .str s => .ok (utf8Encode s)
  | .bytes bs => .ok bs
  | .other t => .error ("Expected bytes but received " ++ t)

/-- The byte chunks a lazy source contributes, stopping at the first chunk
`_assert_bytes` rejects; models the generator `IteratorReader._wrap_iter` in
its iterator/iterable cases (the yielded chunks, plus the pending `TypeError`
message when one was raised). -/
def _wrap_iter : List PyChunk → List (List Nat) × Option String
  | [] => ([], none)
  | c :: cs =>
    match _assert_bytes c with
    | .error e => ([], some e)
    | .ok b =>
      let r := _wrap_iter cs
      (b :: r.1, r.2)

/-- Re-buffering loop of `IteratorReader.__aiter__`: accumulate source chunks
in `buff` until it reaches `_MAGIC` bytes, yield it, repeat; yield any final
nonempty remainder once the source is exhausted. -/
def rebuffer (buff : List Nat) : List (List Nat) → List (List Nat)
  | [] => if buff.isEmpty then [] else [buff]
  | c :: cs =>
    let b := buff ++ c
    if _MAGIC ≤ b.length then b :: rebuffer [] cs else rebuffer b cs

/-- Re-buffering as it unfolds when the source raises mid-iteration: identical
to `rebuffer`, but the pending remainder is lost because the exception
propagates before the trailing `if buff:` runs. -/
def rebufferDropTail (buff : List Nat) : List (List Nat) → List (List Nat)
  | [] => []
  | c :: cs =>
    let b := buff ++ c
    if _MAGIC ≤ b.length then b :: rebufferDropTail [] cs else rebufferDropTail b cs

/-- Models `IteratorReader.__aiter__` over a lazy chunk source: the chunks it
yields and the error (if any) that terminates the iteration. -/
def iterator_reader_aiter (cs : List PyChunk) : List (List Nat) × Option String :=
  let w := _wrap_iter cs
  match w.2 with
  | none => (rebuffer [] w.1, none)
  | some e => (rebufferDropTail [] w.1, some e)

/-!  ## Reader context managers (`_ThreadedFileReaderContextManagerImpl`,
`_NoOpAsyncReaderContextManagerImpl`)

Entry/exit of the async context managers is modelled as explicit state
transitions returning `Except`: `.error` models the `RuntimeError` /
no-op outcome of `__aenter__` / `__aexit__`. -/

/-- Reader produced on entry by the threaded manager (`ThreadedFileReader`
carries the filename and a `None` mimetype; the executor and OS file handle
are outside the model). -/
structure ThreadedFileReader : Type where
  filename : String
  mimetype : Option String
deriving DecidableEq

/-- State of `_ThreadedFileReaderContextManagerImpl`: the `file` attribute
(`none` = not open, as after `attrs` init), the filename and the path. -/
structure ThreadedHandle : Type where
  file : Option Unit
  filename : String
  path : String
deriving DecidableEq

/-- Models `File.stream()`: returns a fresh threaded manager with `file`
unset (the executor-type check is outside the model). -/
def file_stream (f : FileRes) : ThreadedHandle :=
  ⟨none, fileFilename f, f.path⟩

/-- Models `_ThreadedFileReaderContextManagerImpl.__aenter__`: raises
`RuntimeError("File is already open")` when `file` is set, otherwise opens the
file, records it, and returns a `ThreadedFileReader`. -/
def threaded_aenter (h : ThreadedHandle) :
    Except String (ThreadedHandle × ThreadedFileReader) :=
  if h.file.isSome then .error "File is already open"
  else .ok ({ h with file := some () }, ⟨h.filename, none⟩)

/-- Models `_ThreadedFileReaderContextManagerImpl.__aexit__`: raises
`RuntimeError` when `file` is unset (source text: `File isn` + apostrophe +
`t open`; the apostrophe is elided in the message of the model), otherwise closes
and clears it. -/
def threaded_aexit (h : ThreadedHandle) : Except String ThreadedHandle :=
  if h.file.isSome then .ok { h with file := none }
  else .error "File is not open"

/-- State of `_NoOpAsyncReaderContextManagerImpl`: just the wrapped reader. -/
structure NoOpHandle (α : Type) : Type where
  impl : α
deriving DecidableEq

/-- Models `_NoOpAsyncReaderContextManagerImpl.__aenter__`: unconditionally
returns the wrapped reader; the handle has no open/closed state. -/
def noop_aenter {α : Type} (h : NoOpHandle α) : Except String (NoOpHandle α × α) :=
  .ok (h, h.impl)

/-- Models `_NoOpAsyncReaderContextManagerImpl.__aexit__`: does nothing. -/
def noop_aexit {α : Type} (h : NoOpHandle α) : Except String (NoOpHandle α) :=
  .ok h

/-- Reader produced by `Bytes.stream()` (an `IteratorReader`). -/
structure IteratorReader : Type where
  filename : String
  mimetype : Option String
  data : ByteSource
deriving DecidableEq

/-- Models `Bytes.stream()`: wraps a fresh `IteratorReader` in a no-op
context manager. -/
def bytes_stream (b : BytesRes) : NoOpHandle IteratorReader :=
  ⟨⟨bytesFilename b, b.mimetype, b.data⟩⟩

/-!  ## Filesystem model and `save`

The filesystem is a finite map from paths to file contents plus a set of
directories.  `save` is modelled per variant as a state transformer returning
the outcome and the resulting filesystem. -/

/-- Filesystem snapshot: regular files (path, contents) and directories. -/
structure FS : Type where
  files : List (String × List Nat)
  dirs : List String
deriving DecidableEq

/-- Does a regular file exist at `p`?  (`pathlib.Path.is_file` side of
`Path.exists`.) -/
def FS.fileAt (fs : FS) (p : String) : Option (List Nat) :=
  (fs.files.find? (fun e => e.1 == p)).map (fun e => e.2)

/-- Models `pathlib.Path.exists`. -/
def FS.pathExists (fs : FS) (p : String) : Bool :=
  (fs.fileAt p).isSome || fs.dirs.contains p

/-- Models `pathlib.Path.is_dir`. -/
def FS.isDir (fs : FS) (p : String) : Bool := fs.dirs.contains p

/-- Overwrites (or creates) the regular file at `p`. -/
def FS.writeFile (fs : FS) (p : String) (content : List Nat) : FS :=
  ⟨(p, content) :: fs.files.filter (fun e => e.1 != p), fs.dirs⟩

/-- Models `pathlib.Path.expanduser`: a leading `~` is replaced by the home
directory (fixed here as `/home/user`). -/
def expanduser (p : String) : String :=
  if hasPref ['~'] p.toList then "/home/user" ++ String.mk (p.toList.drop 1)
  else p

/-- Models `_to_write_path`: append the default filename when the target is a
directory; fail with `FileExistsError` when the resolved target exists and
`force` is unset; finally expand `~`. -/
def _to_write_path (fs : FS) (path : String) (default_filename : String)
    (force : Bool) : Except String String :=
  let path := if fs.isDir path then path ++ "/" ++ default_filename else path
  if !force && fs.pathExists path then
    .error ("file " ++ path ++ " already exists; use force=True to overwrite")
  else .ok (expanduser path)

/-- Models the generic `Resource.save`: resolve and open the target (the
open happens only after `_to_write_path` succeeds), then stream the reader
chunks to it.  `chunks`/`err` are the output of the reader as in
`iterator_reader_aiter`; on a reader error the bytes already written remain
and the error propagates (the file is closed in the `finally`). -/
def resource_save (fs : FS) (chunks : List (List Nat)) (err : Option String)
    (path : String) (default_filename : String) (force : Bool) :
    Except String Unit × FS :=
  match _to_write_path fs path default_filename force with
  | .error e => (.error e, fs)
  | .ok p =>
    let fs := fs.writeFile p chunks.flatten
    match err with
    | none => (.ok (), fs)
    | some e => (.error e, fs)

/-- Models `File.save` (`_copy_to_path`): resolve the target, then copy the
source file directly (`shutil.copy2`); a missing source fails after the
target check, mirroring the call order. -/
def file_save (fs : FS) (srcPath : String) (path : String)
    (default_filename : String) (force : Bool) : Except String Unit × FS :=
  match _to_write_path fs path default_filename force with
  | .error e => (.error e, fs)
  | .ok p =>
    match fs.fileAt srcPath with
    | none => (.error "FileNotFoundError", fs)
    | some content => (.ok (), fs.writeFile p content)

/-- Models `save` across the variants.  A `URL` resource streams whatever the
remote side produced (`webChunks`, a parameter of the model); a `File`
resource short-circuits to a copy; a flat `Bytes` short-circuits to a single
`_write_bytes`; a lazy `Bytes` goes through the generic streaming path. -/
def res_save (fs : FS) (r : Res) (webChunks : List (List Nat)) (path : String)
    (force : Bool) : Except String Unit × FS :=
  match r with
  | .web _ => resource_save fs webChunks none path (resFilename r) force
  | .file f => file_save fs f.path path (resFilename r) force
  | .inmem b =>
    match b.data with
    | .flat bs =>
      match _to_write_path fs path (resFilename r) force with
      | .error e => (.error e, fs)
      | .ok p => (.ok (), fs.writeFile p bs)
    | .lazy cs =>
      let out := iterator_reader_aiter cs
      resource_save fs out.1 out.2 path (resFilename r) force

/-- The bytes `_assert_bytes` accepts for a well-typed chunk (`bytes` pass
through, `str` is UTF-8 encoded). -/
def chunk_bytes_of : PyChunk → List Nat
  | .str s => utf8Encode s
  | .bytes bs => bs
  | .other _ => []

/-- Is the chunk of an accepted Python type (`bytes` or `str`)? -/
def isByteish : PyChunk → Bool
  | .other _ => false
  | _ => true

/-- Statement of the `extension` property in the words of the specification:
the substring of the filename after its last dot (used to compare the source
`rpartition`-based implementation against the spec). -/
def suffix_after_last_dot (f : String) : String :=
  String.mk ((f.toList.reverse.takeWhile (fun c => c != '.')).reverse)

/-!  ## Supporting lemmas -/

lemma decodeB64Char_encodeB64Char : ∀ n : Nat, n < 64 →
    decodeB64Char (encodeB64Char n) = some n := by decide

lemma encodeB64Char_ne_pad : ∀ n : Nat, n < 64 →
    (encodeB64Char n == '=') = false := by decide

/-- Round trip of the base64 model: decoding an encoding recovers the bytes. -/
lemma b64decode_b64encode : ∀ l : List Nat, (∀ b ∈ l, b < 256) →
    b64decode (b64encode l) = .ok l := by
  intro l
  induction l using b64encode.induct with
  | case1 =>
    intro _
    rfl
  | case2 a =>
    intro h
    have ha : a < 256 := h a (by simp)
    have h1 : a / 4 < 64 := by omega
    have h2 : a % 4 * 16 < 64 := by omega
    simp only [b64encode, b64decode, decodeB64Char_encodeB64Char _ h1,
      decodeB64Char_encodeB64Char _ h2]
    simp only [beq_self_eq_true, Bool.and_self, List.isEmpty_nil, Bool.and_true,
      if_true]
    congr 2
    omega
  | case3 a b =>
    intro h
    have ha : a < 256 := h a (by simp)
    have hb : b < 256 := h b (by simp)
    have h1 : a / 4 < 64 := by omega
    have h2 : a % 4 * 16 + b / 16 < 64 := by omega
    have h3 : b % 16 * 4 < 64 := by omega
    simp only [b64encode, b64decode, decodeB64Char_encodeB64Char _ h1,
      decodeB64Char_encodeB64Char _ h2, decodeB64Char_encodeB64Char _ h3,
      encodeB64Char_ne_pad _ h3]
    simp only [Bool.false_and, if_false, beq_self_eq_true, List.isEmpty_nil,
      Bool.and_true, Bool.and_self, if_true]
    have e1 : a / 4 * 4 + (a % 4 * 16 + b / 16) / 16 = a := by omega
    have e2 : (a % 4 * 16 + b / 16) % 16 * 16 + b % 16 * 4 / 4 = b := by omega
    rw [e1, e2]
    simp
  | case4 a b c rest ih =>
    intro h
    have ha : a < 256 := h a (by simp)
    have hb : b < 256 := h b (by simp)
    have hc : c < 256 := h c (by simp)
    have h1 : a / 4 < 64 := by omega
    have h2 : a % 4 * 16 + b / 16 < 64 := by omega
    have h3 : b % 16 * 4 + c / 64 < 64 := by omega
    have h4 : c % 64 < 64 := by omega
    have hrest : ∀ x ∈ rest, x < 256 := by
      intro x hx
      exact h x (by simp [hx])
    simp only [b64encode, b64decode, decodeB64Char_encodeB64Char _ h1,
      decodeB64Char_encodeB64Char _ h2, decodeB64Char_encodeB64Char _ h3,
      decodeB64Char_encodeB64Char _ h4, encodeB64Char_ne_pad _ h3,
      encodeB64Char_ne_pad _ h4, ih hrest]
    simp only [Bool.false_and, Bool.and_false, if_false]
    have e1 : a / 4 * 4 + (a % 4 * 16 + b / 16) / 16 = a := by omega
    have e2 : (a % 4 * 16 + b / 16) % 16 * 16 + (b % 16 * 4 + c / 64) / 4 = b := by
      omega
    have e3 : (b % 16 * 4 + c / 64) % 4 * 64 + c % 64 = c := by omega
    rw [e1, e2, e3]
    simp

lemma hasChar_iff_mem (c : Char) (l : List Char) : hasChar c l = true ↔ c ∈ l := by
  unfold hasChar
  rw [List.any_eq_true]
  constructor
  · rintro ⟨x, hx, hbeq⟩
    rw [beq_iff_eq] at hbeq
    rwa [hbeq] at hx
  · intro h
    exact ⟨c, h, by simp⟩

lemma hasChar_false_iff (c : Char) (l : List Char) :
    hasChar c l = false ↔ c ∉ l := by
  rw [← hasChar_iff_mem c l]
  simp

lemma hasPref_append {α : Type} [BEq α] [LawfulBEq α] (p r : List α) :
    hasPref p (p ++ r) = true := by
  induction p with
  | nil => rfl
  | cons x xs ih => simp [hasPref, ih]

lemma splitFirst_append_cons (c : Char) (p r : List Char)
    (h : hasChar c p = false) : splitFirst c (p ++ c :: r) = some (p, r) := by
  induction p with
  | nil => simp [splitFirst]
  | cons x xs ih =>
    have hx : (x == c) = false := by
      have := (hasChar_false_iff c (x :: xs)).mp h
      simp only [List.mem_cons, not_or] at this
      simpa [beq_eq_false_iff_ne] using fun hxc => this.1 hxc.symm
    have hxs : hasChar c xs = false := by
      rw [hasChar_false_iff] at h ⊢
      intro hm
      exact h (List.mem_cons_of_mem _ hm)
    simp [splitFirst, hx, ih hxs]

lemma hasSuf_append (p r : List Char) : hasSuf p (r ++ p) = true := by
  unfold hasSuf
  rw [List.reverse_append]
  exact hasPref_append _ _

lemma afterLast_eq_none_iff (c : Char) (l : List Char) :
    afterLast c l = none ↔ c ∉ l := by
  induction l with
  | nil => simp [afterLast]
  | cons x xs ih =>
    simp only [afterLast, List.mem_cons, not_or]
    cases hxs : afterLast c xs with
    | some r =>
      have hcm : c ∈ xs := by
        by_contra hcm
        have := ih.mpr hcm
        rw [this] at hxs
        exact Option.noConfusion hxs
      constructor
      · intro h
        exact Option.noConfusion h
      · intro h
        exact absurd hcm h.2
    | none =>
      have hcn : c ∉ xs := ih.mp hxs
      by_cases hx : (x == c) = true
      · rw [if_pos hx]
        rw [beq_iff_eq] at hx
        constructor
        · intro h
          exact Option.noConfusion h
        · intro h
          exact absurd hx.symm h.1
      · rw [if_neg hx]
        constructor
        · intro _
          refine ⟨fun hcx => hx ?_, hcn⟩
          rw [beq_iff_eq]
          exact hcx.symm
        · intro _
          rfl

lemma afterLast_length_lt (c : Char) (l r : List Char)
    (h : afterLast c l = some r) : r.length < l.length := by
  induction l generalizing r with
  | nil => simp [afterLast] at h
  | cons x xs ih =>
    simp only [afterLast] at h
    cases hxs : afterLast c xs with
    | some r0 =>
      rw [hxs] at h
      simp only [Option.some.injEq] at h
      subst h
      have hlt := ih r0 hxs
      rw [List.length_cons]
      omega
    | none =>
      rw [hxs] at h
      by_cases hx : (x == c) = true
      · rw [if_pos hx] at h
        simp only [Option.some.injEq] at h
        subst h
        simp
      · rw [if_neg hx] at h
        exact absurd h (by simp)

lemma takeWhile_append_all {α : Type} (p : α → Bool) (xs ys : List α)
    (h : ∀ x ∈ xs, p x = true) :
    (xs ++ ys).takeWhile p = xs ++ ys.takeWhile p := by
  induction xs with
  | nil => simp
  | cons a as ih =>
    have ha : p a = true := h a (by simp)
    simp only [List.cons_append, List.takeWhile_cons, ha, if_true]
    rw [ih (fun x hx => h x (by simp [hx]))]

lemma takeWhile_append_stop {α : Type} (p : α → Bool) (xs ys : List α)
    (h : ∃ x ∈ xs, p x = false) :
    (xs ++ ys).takeWhile p = xs.takeWhile p := by
  induction xs with
  | nil =>
    obtain ⟨x, hx, _⟩ := h
    exact absurd hx (by simp)
  | cons a as ih =>
    by_cases ha : p a = true
    · have has : ∃ x ∈ as, p x = false := by
        obtain ⟨x, hx, hpx⟩ := h
        rcases List.mem_cons.mp hx with rfl | hmem
        · rw [ha] at hpx
          exact absurd hpx (by simp)
        · exact ⟨x, hmem, hpx⟩
      simp only [List.cons_append, List.takeWhile_cons, ha, if_true]
      rw [ih has]
    · have ha' : p a = false := by
        cases hpa : p a
        · rfl
        · exact absurd hpa ha
      simp [List.takeWhile_cons, ha']

/-- When `c` occurs in `l`, `afterLast` returns exactly the suffix after its
last occurrence, i.e. the reversed longest `c`-free suffix. -/
lemma afterLast_eq_spec (c : Char) (l : List Char) (h : c ∈ l) :
    afterLast c l = some ((l.reverse.takeWhile (fun x => x != c)).reverse) := by
  induction l with
  | nil => exact absurd h (by simp)
  | cons x xs ih =>
    by_cases hxs : c ∈ xs
    · rw [show afterLast c (x :: xs) = afterLast c xs by
        simp only [afterLast]
        rw [ih hxs]]
      rw [ih hxs]
      congr 2
      rw [List.reverse_cons]
      rw [takeWhile_append_stop]
      refine ⟨c, by simp [hxs], by simp⟩
    · have hx : x = c := by
        rcases List.mem_cons.mp h with rfl | hm
        · rfl
        · exact absurd hm hxs
      subst hx
      have hnone : afterLast x xs = none := (afterLast_eq_none_iff x xs).mpr hxs
      simp only [afterLast, hnone, beq_self_eq_true, if_true]
      congr 1
      rw [List.reverse_cons]
      rw [takeWhile_append_all]
      · simp
      · intro y hy
        rw [List.mem_reverse] at hy
        rw [bne_iff_ne]
        intro hyc
        rw [hyc] at hy
        exact hxs hy

/-- The `_wrap_iter` of a source that yields only `bytes` chunks passes them
through unchanged and raises nothing. -/
lemma _wrap_iter_bytes (cs : List (List Nat)) :
    _wrap_iter (cs.map PyChunk.bytes) = (cs, none) := by
  induction cs with
  | nil => rfl
  | cons c cs ih => simp [_wrap_iter, _assert_bytes, ih]

/-- Size bounds of the re-buffering loop: starting from a partial buffer
shorter than `_MAGIC`, if every incoming chunk is at most `_MAGIC` long then
every yielded chunk except the last is at least `_MAGIC` long, and every
yielded chunk is shorter than `2 * _MAGIC`. -/
lemma rebuffer_bounds (src : List (List Nat)) (buff : List Nat)
    (hb : buff.length < _MAGIC) (hs : ∀ c ∈ src, c.length ≤ _MAGIC) :
    (∀ c ∈ (rebuffer buff src).dropLast, _MAGIC ≤ c.length) ∧
    (∀ c ∈ rebuffer buff src, c.length < 2 * _MAGIC) := by
  induction src generalizing buff with
  | nil =>
    constructor
    · intro c hc
      simp only [rebuffer] at hc
      by_cases hbe : buff.isEmpty = true
      · rw [if_pos hbe] at hc
        simp at hc
      · rw [if_neg hbe] at hc
        simp at hc
    · intro c hc
      simp only [rebuffer] at hc
      by_cases hbe : buff.isEmpty = true
      · rw [if_pos hbe] at hc
        simp at hc
      · rw [if_neg hbe] at hc
        rw [List.mem_singleton] at hc
        subst hc
        omega
  | cons x xs ih =>
    have hx : x.length ≤ _MAGIC := hs x (by simp)
    have hxs : ∀ c ∈ xs, c.length ≤ _MAGIC := fun c hc => hs c (by simp [hc])
    have hlen : (buff ++ x).length < 2 * _MAGIC := by
      rw [List.length_append]
      omega
    by_cases hfull : _MAGIC ≤ (buff ++ x).length
    · have hmagic : (0 : Nat) < _MAGIC := by norm_num [_MAGIC]
      have ihe := ih [] (by simpa using hmagic) hxs
      have hstep : rebuffer buff (x :: xs) = (buff ++ x) :: rebuffer [] xs := by
        simp only [rebuffer]
        rw [if_pos hfull]
      rw [hstep]
      constructor
      · intro c hc
        cases hrest : rebuffer [] xs with
        | nil =>
          rw [hrest] at hc
          simp at hc
        | cons y ys =>
          rw [hrest] at hc
          rw [List.dropLast_cons₂] at hc
          rcases List.mem_cons.mp hc with rfl | hm
          · exact hfull
          · rw [← hrest] at hm
            exact ihe.1 c hm
      · intro c hc
        rcases List.mem_cons.mp hc with rfl | hm
        · exact hlen
        · exact ihe.2 c hm
    · have hstep : rebuffer buff (x :: xs) = rebuffer (buff ++ x) xs := by
        simp only [rebuffer]
        rw [if_neg hfull]
      rw [hstep]
      exact ih (buff ++ x) (by omega) hxs

/-- Characterization of `extension_of` against the spec-worded
`suffix_after_last_dot`. -/
lemma extension_of_eq (f : String) :
    (extension_of f = none ↔ '.' ∉ f.toList) ∧
    ('.' ∈ f.toList → extension_of f = some (suffix_after_last_dot f)) := by
  by_cases hm : '.' ∈ f.toList
  · obtain ⟨r, hr⟩ : ∃ r, afterLast '.' f.toList = some r := by
      cases hal : afterLast '.' f.toList with
      | none => exact absurd ((afterLast_eq_none_iff _ _).mp hal) (not_not.mpr hm)
      | some r => exact ⟨r, rfl⟩
    have hlt := afterLast_length_lt '.' f.toList r hr
    have hne : ¬((r == f.toList) = true) := by
      rw [beq_iff_eq]
      intro he
      rw [he] at hlt
      omega
    have hval : extension_of f = some (String.mk r) := by
      unfold extension_of
      rw [hr]
      exact if_neg hne
    have hspec : r = (f.toList.reverse.takeWhile (fun x => x != '.')).reverse := by
      have := afterLast_eq_spec '.' f.toList hm
      rw [hr] at this
      exact Option.some.inj this
    constructor
    · rw [hval]
      constructor
      · intro h
        exact Option.noConfusion h
      · intro h
        exact absurd hm h
    · intro _
      rw [hval, hspec]
      rfl
  · have hnone : afterLast '.' f.toList = none := (afterLast_eq_none_iff _ _).mpr hm
    have hval : extension_of f = none := by
      unfold extension_of
      rw [hnone]
      exact if_pos (beq_self_eq_true _)
    exact ⟨⟨fun _ => hm, fun _ => hval⟩, fun h => absurd h hm⟩

/-- A run of well-typed chunks contributes its converted bytes and defers the
outcome to the remainder of the source. -/
lemma wrap_iter_good (good : List PyChunk) (h : ∀ c ∈ good, isByteish c = true) :
    ∀ rest : List PyChunk,
      _wrap_iter (good ++ rest) =
        (good.map chunk_bytes_of ++ (_wrap_iter rest).1, (_wrap_iter rest).2) := by
  induction good with
  | nil =>
    intro rest
    simp
  | cons c cs ih =>
    intro rest
    have hc : isByteish c = true := h c (by simp)
    have hok : _assert_bytes c = .ok (chunk_bytes_of c) := by
      cases c with
      | str s => rfl
      | bytes bs => rfl
      | other t => exact absurd hc (by simp [isByteish])
    simp only [List.cons_append, _wrap_iter, hok, List.append_eq]
    rw [ih (fun x hx => h x (by simp [hx])) rest]
    simp

lemma hasChar_append (c : Char) (a b : List Char) :
    hasChar c (a ++ b) = (hasChar c a || hasChar c b) := by
  simp [hasChar]

lemma mk_toList (s : String) : String.mk s.toList = s := rfl

/-- Decoding `to_data_uri` output: core computation, for a mimetype string
containing no comma or semicolon, containing a slash and no equals sign. -/
lemma from_data_uri_to_data_uri (data : List Nat) (mt uuid : String)
    (h256 : ∀ b ∈ data, b < 256) (h1 : hasChar ',' mt.toList = false)
    (h2 : hasChar ';' mt.toList = false) (h3 : hasChar '/' mt.toList = true)
    (h4 : hasChar '=' mt.toList = false) :
    from_data_uri ("data:".toList ++ (mt.toList ++ (";base64,".toList ++ b64encode data)))
      none uuid =
      .ok (mkBytes (.flat data)
        (generate_filename_from_details (some mt) none (some data) uuid)
        (some mt) false) := by
  have hpre : hasPref "data:".toList
      ("data:".toList ++ (mt.toList ++ (";base64,".toList ++ b64encode data))) = true :=
    hasPref_append _ _
  have hdrop : ("data:".toList ++
      (mt.toList ++ (";base64,".toList ++ b64encode data))).drop 5 =
      mt.toList ++ (";base64,".toList ++ b64encode data) :=
    List.drop_left' rfl
  have harr : mt.toList ++ (";base64,".toList ++ b64encode data) =
      (mt.toList ++ ";base64".toList) ++ (',' :: b64encode data) := by
    rw [show (";base64,".toList : List Char) = ";base64".toList ++ [','] from rfl]
    rw [List.append_assoc, ← List.append_assoc]
    rfl
  have hsplit : splitFirst ','
      (mt.toList ++ (";base64,".toList ++ b64encode data)) =
      some (mt.toList ++ ";base64".toList, b64encode data) := by
    rw [harr]
    refine splitFirst_append_cons ',' _ _ ?_
    rw [hasChar_append, h1]
    decide
  have hsuf : hasSuf ";base64".toList (mt.toList ++ ";base64".toList) = true :=
    hasSuf_append _ _
  have hdec := b64decode_b64encode data h256
  have hty : splitFirst ';' (mt.toList ++ ";base64".toList) =
      some (mt.toList, "base64".toList) := by
    rw [show (";base64".toList : List Char) = ';' :: "base64".toList from rfl]
    exact splitFirst_append_cons ';' _ _ h2
  have hguess : guess_type_data_uri
      ("data:".toList ++ (mt.toList ++ (";base64,".toList ++ b64encode data))) =
      some mt := by
    unfold guess_type_data_uri
    rw [hdrop]
    simp only [hsplit, hty, h4, h3]
    simp [mk_toList]
  unfold from_data_uri
  simp only [hpre, Bool.not_true, Bool.false_eq_true, if_false, hdrop, hsplit,
    hsuf, if_true, hdec, hguess]

/-!  ## Claim theorems -/

/-- C7: for both `File` and `Bytes` resources, `filename` is a pure function
of the construction arguments (immediate in this pure embedding, where the
property is a Lean function of the stored fields), a resource constructed
with `spoiler=True` has exactly the filename `SPOILER_` + the filename of the
same resource with `spoiler=False`, and the underlying data (`File.path`,
`Bytes.data`) is unaffected by the spoiler flag. -/
theorem C7_spoiler_filename : ∀ (p : String) (fn : Option String)
    (d : ByteSource) (bfn : String) (mt : Option String),
    fileFilename ⟨p, fn, true⟩ = SPOILER_TAG ++ fileFilename ⟨p, fn, false⟩ ∧
    bytesFilename (mkBytes d bfn mt true) =
      SPOILER_TAG ++ bytesFilename (mkBytes d bfn mt false) ∧
    (mkBytes d bfn mt true).data = (mkBytes d bfn mt false).data ∧
    (⟨p, fn, true⟩ : FileRes).path = (⟨p, fn, false⟩ : FileRes).path := by
  intro p fn d bfn mt
  refine ⟨?_, ?_, ?_, rfl⟩
  · cases fn <;> simp [fileFilename]
  · simp [bytesFilename, mkBytes]
  · simp [mkBytes]

/-- C9: the `mimetype` attribute of a `Bytes` resource is never `None` after
construction; when no mimetype is passed it is the filename-based guess, or
the fixed default `text/plain;charset=UTF-8` when that guess fails. -/
theorem C9_mimetype_never_none : ∀ (d : ByteSource) (fn : String)
    (mt : Option String) (sp : Bool),
    (mkBytes d fn mt sp).mimetype ≠ none ∧
    (mkBytes d fn none sp).mimetype =
      some (match guess_mimetype_from_filename fn with
            | some g => g
            | none => "text/plain;charset=UTF-8") := by
  intro d fn mt sp
  constructor
  · cases mt with
    | some m => simp [mkBytes]
    | none =>
      cases hg : guess_mimetype_from_filename fn <;> simp [mkBytes, hg]
  · cases hg : guess_mimetype_from_filename fn <;> simp [mkBytes, hg]

theorem C9_mimetype_never_none_witness :
    (mkBytes (ByteSource.flat []) "x.png" none false).mimetype ≠ none ∧
    (mkBytes (ByteSource.flat []) "x.png" none false).mimetype =
      some (match guess_mimetype_from_filename "x.png" with
            | some g => g
            | none => "text/plain;charset=UTF-8") :=
  C9_mimetype_never_none (ByteSource.flat []) "x.png" none false

/-- C10: for every resource, `extension` is `None` exactly when the filename
contains no dot, and otherwise equals the substring of the filename after its
last dot (the empty string for a trailing dot). -/
theorem C10_extension_characterization : ∀ r : Res,
    (resExtension r = none ↔ '.' ∉ (resFilename r).toList) ∧
    ('.' ∈ (resFilename r).toList →
      resExtension r = some (suffix_after_last_dot (resFilename r))) := by
  intro r
  exact extension_of_eq (resFilename r)

theorem C10_extension_characterization_witness :
    '.' ∈ (resFilename (Res.file ⟨"dir/a.png", none, false⟩)).toList ∧
    resExtension (Res.file ⟨"dir/a.png", none, false⟩) =
      some (suffix_after_last_dot (resFilename (Res.file ⟨"dir/a.png", none, false⟩))) :=
  ⟨by decide, (C10_extension_characterization (Res.file ⟨"dir/a.png", none, false⟩)).2
    (by decide)⟩

/-- C3, counterexample: the claim says the hash is determined solely by
`url`.  A `File` and a `Bytes` resource with the same filename have the same
`url` (`attachment://a.png`), compare equal under `__eq__`, yet
`Resource.__hash__` hashes the pair `(self.__class__, self.url)`, and those
pairs differ between the two variants, so the hash input is not a function of
the url alone. -/
theorem C3_hash_counterexample :
    res_eq (Res.file ⟨"a.png", none, false⟩)
        (Res.inmem (mkBytes (ByteSource.flat []) "a.png" none false)) = true ∧
    resUrl (Res.file ⟨"a.png", none, false⟩) =
      resUrl (Res.inmem (mkBytes (ByteSource.flat []) "a.png" none false)) ∧
    res_hash_input (Res.file ⟨"a.png", none, false⟩) ≠
      res_hash_input (Res.inmem (mkBytes (ByteSource.flat []) "a.png" none false)) := by
  refine ⟨by decide, by decide, by decide⟩

/-- C3, amended: equality is determined solely by `url` (true as claimed),
but the input of `hash` is the pair `(class, url)`: the hash is a function of
the class of the variant together with the url, so equal hash inputs are only
guaranteed for resources of the same variant with the same url. -/
theorem C3_eq_by_url_hash_by_class_url :
    (∀ r1 r2 : Res, res_eq r1 r2 = true ↔ resUrl r1 = resUrl r2) ∧
    (∀ r1 r2 : Res, resClass r1 = resClass r2 → resUrl r1 = resUrl r2 →
      res_hash_input r1 = res_hash_input r2) := by
  constructor
  · intro r1 r2
    unfold res_eq
    exact beq_iff_eq
  · intro r1 r2 hc hu
    unfold res_hash_input
    rw [hc, hu]

theorem C3_eq_by_url_hash_by_class_url_witness :
    (res_eq (Res.file ⟨"a.png", none, false⟩) (Res.file ⟨"b/a.png", none, false⟩)
      = true) ∧
    res_hash_input (Res.file ⟨"a.png", none, false⟩) =
      res_hash_input (Res.file ⟨"b/a.png", none, false⟩) :=
  ⟨(C3_eq_by_url_hash_by_class_url.1 _ _).mpr (by decide),
   C3_eq_by_url_hash_by_class_url.2 (Res.file ⟨"a.png", none, false⟩)
     (Res.file ⟨"b/a.png", none, false⟩) (by decide) (by decide)⟩

/-- C2, counterexample: the claim quantifies over every `Resource` variant,
but the handle returned by `Bytes.stream()` is the no-op context manager:
its `__aenter__` leaves the handle unchanged and never errors — so entering
it a second time (the state after a first successful enter is the same
handle) succeeds rather than failing fast — and its `__aexit__` on a handle
that was never entered also succeeds. -/
theorem C2_noop_handle_counterexample :
    noop_aenter (bytes_stream (mkBytes (ByteSource.flat []) "f" none false)) =
      .ok (bytes_stream (mkBytes (ByteSource.flat []) "f" none false),
           ⟨"f", some "text/plain;charset=UTF-8", ByteSource.flat []⟩) ∧
    noop_aexit (bytes_stream (mkBytes (ByteSource.flat []) "f" none false)) =
      .ok (bytes_stream (mkBytes (ByteSource.flat []) "f" none false)) := by
  refine ⟨rfl, rfl⟩

/-- C2, amended: the double-enter / exit-before-enter protections exist only
on the threaded file handle (`File.stream()`): entering an already-entered
threaded handle fails with `RuntimeError("File is already open")` and exiting
a never-entered one fails with the distinct `RuntimeError` (`File isn` +
apostrophe + `t open`); the no-op handle used by `Bytes.stream()` performs no
such checks and never errors. -/
theorem C2_threaded_handle_guards :
    (∀ (h h' : ThreadedHandle) (r : ThreadedFileReader),
      threaded_aenter h = .ok (h', r) →
      threaded_aenter h' = .error "File is already open") ∧
    (∀ f : FileRes, threaded_aexit (file_stream f) = .error "File is not open") ∧
    (∀ (α : Type) (h : NoOpHandle α),
      noop_aenter h = .ok (h, h.impl) ∧ noop_aexit h = .ok h) := by
  refine ⟨?_, ?_, ?_⟩
  · intro h h' r henter
    unfold threaded_aenter at henter ⊢
    by_cases hopen : h.file.isSome = true
    · rw [if_pos hopen] at henter
      exact Except.noConfusion henter
    · rw [if_neg hopen] at henter
      have hpair := Except.ok.inj henter
      have hh' : ({ h with file := some () } : ThreadedHandle) = h' :=
        congrArg Prod.fst hpair
      rw [← hh']
      rfl
  · intro f
    rfl
  · intro α h
    exact ⟨rfl, rfl⟩

theorem C2_threaded_handle_guards_witness :
    threaded_aenter ⟨some (), "a.png", "a.png"⟩ = .error "File is already open" ∧
    threaded_aexit (file_stream ⟨"a.png", none, false⟩) = .error "File is not open" :=
  ⟨C2_threaded_handle_guards.1 (file_stream ⟨"a.png", none, false⟩)
      ⟨some (), "a.png", "a.png"⟩ ⟨"a.png", none⟩ rfl,
   C2_threaded_handle_guards.2.1 ⟨"a.png", none, false⟩⟩

/-- C1, counterexample: the claim says no yielded chunk is ever larger than
the 50 KiB target when every source chunk is at most the target.  But the
re-buffering loop yields the whole buffer the moment it reaches the target,
and the buffer can overshoot by up to one source chunk: two source chunks of
30000 bytes (each well below `_MAGIC = 51200`) produce one yielded chunk of
60000 bytes, strictly larger than the target. -/
theorem C1_oversized_chunk_counterexample :
    (List.replicate 30000 (0 : Nat)).length ≤ _MAGIC ∧
    iterator_reader_aiter
        ([List.replicate 30000 (0 : Nat), List.replicate 30000 0].map PyChunk.bytes) =
      ([List.replicate 30000 (0 : Nat) ++ List.replicate 30000 0], none) ∧
    _MAGIC < (List.replicate 30000 (0 : Nat) ++ List.replicate 30000 0).length := by
  have h1 : ¬(_MAGIC ≤ (([] : List Nat) ++ List.replicate 30000 (0 : Nat)).length) := by
    rw [List.nil_append, List.length_replicate]
    norm_num [_MAGIC]
  have h2 : _MAGIC ≤ ((([] : List Nat) ++ List.replicate 30000 (0 : Nat)) ++
      List.replicate 30000 0).length := by
    rw [List.nil_append, List.length_append, List.length_replicate]
    norm_num [_MAGIC]
  have hreb : rebuffer [] [List.replicate 30000 (0 : Nat), List.replicate 30000 0] =
      [List.replicate 30000 (0 : Nat) ++ List.replicate 30000 0] := by
    rw [show rebuffer [] [List.replicate 30000 (0 : Nat), List.replicate 30000 0] =
        rebuffer (([] : List Nat) ++ List.replicate 30000 (0 : Nat))
          [List.replicate 30000 0] from by
      simp only [rebuffer]
      rw [if_neg h1]]
    rw [show rebuffer (([] : List Nat) ++ List.replicate 30000 (0 : Nat))
        [List.replicate 30000 0] =
        ((([] : List Nat) ++ List.replicate 30000 (0 : Nat)) ++
          List.replicate 30000 0) :: rebuffer [] [] from by
      simp only [rebuffer]
      rw [if_pos h2]]
    rw [List.nil_append]
    rw [show rebuffer ([] : List Nat) [] = [] from rfl]
  refine ⟨?_, ?_, ?_⟩
  · rw [List.length_replicate]
    norm_num [_MAGIC]
  · have heq : iterator_reader_aiter
        ([List.replicate 30000 (0 : Nat), List.replicate 30000 0].map PyChunk.bytes) =
        (rebuffer [] [List.replicate 30000 (0 : Nat), List.replicate 30000 0], none) := by
      unfold iterator_reader_aiter
      rw [_wrap_iter_bytes]
    rw [heq, hreb]
  · rw [List.length_append, List.length_replicate]
    norm_num [_MAGIC]

/-- C1, amended: for a source yielding only `bytes` chunks of at most the
50 KiB target size, the reader raises nothing, every yielded chunk except
possibly the final remainder is at least the target size, and every yielded
chunk is strictly smaller than twice the target (it can exceed the target by
up to one source chunk, contrary to the never-larger bound of the claim). -/
theorem C1_rebuffered_chunk_bounds : ∀ cs : List (List Nat),
    (∀ c ∈ cs, c.length ≤ _MAGIC) →
    (iterator_reader_aiter (cs.map PyChunk.bytes)).2 = none ∧
    (∀ c ∈ (iterator_reader_aiter (cs.map PyChunk.bytes)).1.dropLast,
      _MAGIC ≤ c.length) ∧
    (∀ c ∈ (iterator_reader_aiter (cs.map PyChunk.bytes)).1,
      c.length < 2 * _MAGIC) := by
  intro cs h
  have heq : iterator_reader_aiter (cs.map PyChunk.bytes) = (rebuffer [] cs, none) := by
    unfold iterator_reader_aiter
    rw [_wrap_iter_bytes cs]
  rw [heq]
  have hb := rebuffer_bounds cs [] (by norm_num [_MAGIC]) h
  exact ⟨rfl, hb.1, hb.2⟩

theorem C1_rebuffered_chunk_bounds_witness :
    (iterator_reader_aiter ([[(0 : Nat)], [1]].map PyChunk.bytes)).2 = none ∧
    ([(0 : Nat), 1] : List Nat).length < 2 * _MAGIC :=
  ⟨(C1_rebuffered_chunk_bounds [[0], [1]] (by decide)).1,
   (C1_rebuffered_chunk_bounds [[0], [1]] (by decide)).2.2 [0, 1] (by decide)⟩

/-- C8: each `str` chunk is UTF-8 encoded, each `bytes` chunk passes through
unchanged, and the first chunk of any other type stops the iteration with a
`TypeError` whose message names the offending type; well-typed prefixes are
unaffected. -/
theorem C8_chunk_typing :
    (∀ s : String, _assert_bytes (.str s) = .ok (utf8Encode s)) ∧
    (∀ bs : List Nat, _assert_bytes (.bytes bs) = .ok bs) ∧
    (∀ (good rest : List PyChunk) (t : String),
      (∀ c ∈ good, isByteish c = true) →
      _wrap_iter (good ++ PyChunk.other t :: rest) =
        (good.map chunk_bytes_of, some ("Expected bytes but received " ++ t))) ∧
    (∀ good : List PyChunk,
      (∀ c ∈ good, isByteish c = true) →
      _wrap_iter good = (good.map chunk_bytes_of, none)) := by
  refine ⟨fun s => rfl, fun bs => rfl, ?_, ?_⟩
  · intro good rest t hgood
    rw [wrap_iter_good good hgood (PyChunk.other t :: rest)]
    simp [_wrap_iter, _assert_bytes]
  · intro good hgood
    have := wrap_iter_good good hgood []
    rw [List.append_nil] at this
    rw [this]
    simp [_wrap_iter]

theorem C8_chunk_typing_witness :
    _wrap_iter [PyChunk.str "hi", PyChunk.bytes [1], PyChunk.other "int"] =
      ([utf8Encode "hi", [1]], some "Expected bytes but received int") :=
  C8_chunk_typing.2.2.1 [PyChunk.str "hi", PyChunk.bytes [1]] [] "int" (by decide)

/-- C5: for every resource variant, saving to a target path at which a
regular file already exists with `force=False` fails with the
`FileExistsError` raised by `_to_write_path` before any write or open
happens, and the filesystem — in particular the existing file contents —
is unchanged. -/
theorem C5_save_no_overwrite : ∀ (r : Res) (web : List (List Nat)) (fs : FS)
    (path : String),
    (fs.fileAt path).isSome = true → fs.isDir path = false →
    res_save fs r web path false =
      (.error ("file " ++ path ++ " already exists; use force=True to overwrite"),
       fs) := by
  intro r web fs path hfile hdir
  have hex : fs.pathExists path = true := by
    unfold FS.pathExists
    rw [hfile]
    rfl
  have hw : ∀ dfn : String, _to_write_path fs path dfn false =
      .error ("file " ++ path ++ " already exists; use force=True to overwrite") := by
    intro dfn
    unfold _to_write_path
    rw [hdir]
    simp only [Bool.false_eq_true, if_false, hex]
    rfl
  cases r with
  | web u =>
    unfold res_save resource_save
    rw [hw]
  | file f =>
    unfold res_save file_save
    rw [hw]
  | inmem b =>
    obtain ⟨data, fname, mt, sp⟩ := b
    cases data with
    | flat bs =>
      simp only [res_save]
      rw [hw]
    | lazy cs =>
      simp only [res_save, resource_save]
      rw [hw]

theorem C5_save_no_overwrite_witness :
    res_save ⟨[("t.txt", [1, 2])], []⟩ (Res.file ⟨"src.bin", none, false⟩) []
        "t.txt" false =
      (.error ("file " ++ "t.txt" ++ " already exists; use force=True to overwrite"),
       ⟨[("t.txt", [1, 2])], []⟩) :=
  C5_save_no_overwrite (Res.file ⟨"src.bin", none, false⟩) [] ⟨[("t.txt", [1, 2])], []⟩
    "t.txt" (by decide) (by decide)

/-- C4: `ensure_resource` classifies its argument in the claimed precedence
order — an existing resource is returned identically; raw bytes become a
`Bytes` with the generated filename; an `https://`/`http://` string becomes a
`URL` whose filename is the basename of the URL path component; a `data:`
string is decoded into a `Bytes`, falling through to `File` treatment when
decoding fails; everything else becomes a `File` named after the final path
component. -/
theorem C4_ensure_resource_classification :
    ∀ (r : Res) (data : List Nat) (s uuid : String),
    ensure_resource (.res r) uuid = r ∧
    ensure_resource (.raw data) uuid =
      .inmem (mkBytes (.flat data)
        (generate_filename_from_details none none (some data) uuid) none false) ∧
    ((hasPref "https://".toList s.toList || hasPref "http://".toList s.toList) = true →
      ensure_resource (.pathish s) uuid = .web ⟨s, none⟩ ∧
      resFilename (Res.web ⟨s, none⟩) = basename (url_path s)) ∧
    ((hasPref "https://".toList s.toList || hasPref "http://".toList s.toList) = false →
      hasPref "data:".toList s.toList = true →
      (∀ b, from_data_uri s.toList none uuid = .ok b →
        ensure_resource (.pathish s) uuid = .inmem b) ∧
      (∀ e, from_data_uri s.toList none uuid = .error e →
        ensure_resource (.pathish s) uuid = .file ⟨s, some (pathName s), false⟩)) ∧
    ((hasPref "https://".toList s.toList || hasPref "http://".toList s.toList) = false →
      hasPref "data:".toList s.toList = false →
      ensure_resource (.pathish s) uuid = .file ⟨s, some (pathName s), false⟩) ∧
    resFilename (Res.file ⟨s, some (pathName s), false⟩) = pathName s := by
  intro r data s uuid
  refine ⟨rfl, rfl, ?_, ?_, ?_, ?_⟩
  · intro hweb
    refine ⟨?_, rfl⟩
    simp only [ensure_resource]
    rw [if_pos hweb]
  · intro hweb hdata
    constructor
    · intro b hok
      simp only [ensure_resource]
      rw [if_neg (by rw [hweb]; exact Bool.false_ne_true), if_pos hdata, hok]
    · intro e herr
      simp only [ensure_resource]
      rw [if_neg (by rw [hweb]; exact Bool.false_ne_true), if_pos hdata, herr]
  · intro hweb hdata
    simp only [ensure_resource]
    rw [if_neg (by rw [hweb]; exact Bool.false_ne_true),
      if_neg (by rw [hdata]; exact Bool.false_ne_true)]
  · show fileFilename ⟨s, some (pathName s), false⟩ = pathName s
    unfold fileFilename
    by_cases hp : (pathName s).isEmpty = true
    · simp [hp]
    · simp [hp]

theorem C4_ensure_resource_classification_witness :
    ensure_resource (.pathish "https://example.com/a.png") "u" =
      .web ⟨"https://example.com/a.png", none⟩ ∧
    basename (url_path "https://example.com/a.png") = "a.png" ∧
    ensure_resource (.pathish "/tmp/foo.txt") "u" =
      .file ⟨"/tmp/foo.txt", some (pathName "/tmp/foo.txt"), false⟩ ∧
    pathName "/tmp/foo.txt" = "foo.txt" ∧
    ensure_resource (.raw [104, 105]) "u" =
      .inmem (mkBytes (.flat [104, 105])
        (generate_filename_from_details none none (some [104, 105]) "u") none false) ∧
    ensure_resource (.pathish "data:text/plain;base64,aGk=") "u" =
      .inmem (mkBytes (.flat [104, 105]) "u.txt" (some "text/plain") false) :=
  ⟨((C4_ensure_resource_classification (Res.file ⟨"x", none, false⟩) []
      "https://example.com/a.png" "u").2.2.1 (by decide)).1,
   by decide,
   (C4_ensure_resource_classification (Res.file ⟨"x", none, false⟩) []
      "/tmp/foo.txt" "u").2.2.2.2.1 (by decide) (by decide),
   by decide,
   (C4_ensure_resource_classification (Res.file ⟨"x", none, false⟩) [104, 105]
      "s" "u").2.1,
   ((C4_ensure_resource_classification (Res.file ⟨"x", none, false⟩) []
      "data:text/plain;base64,aGk=" "u").2.2.2.1 (by decide) (by decide)).1
     (mkBytes (.flat [104, 105]) "u.txt" (some "text/plain") false) rfl⟩

/-- C6, counterexample: the claim quantifies over every mimetype for which
`to_data_uri` succeeds, but a mimetype containing a comma breaks the round
trip: `to_data_uri b"x" "a,b"` succeeds, yet decoding splits the URI at its
first comma (inside the mimetype), so the non-base64 branch is taken and the
recovered data is the raw tail `b"b;base64,eA=="`, not `b"x"`. -/
theorem C6_comma_mimetype_counterexample :
    to_data_uri [120] (some "a,b") = .ok "data:a,b;base64,eA==".toList ∧
    (from_data_uri "data:a,b;base64,eA==".toList none "u").map BytesRes.data =
      .ok (ByteSource.flat
        [98, 59, 98, 97, 115, 101, 54, 52, 44, 101, 65, 61, 61]) ∧
    ByteSource.flat [98, 59, 98, 97, 115, 101, 54, 52, 44, 101, 65, 61, 61] ≠
      ByteSource.flat [120] := by
  refine ⟨rfl, rfl, by decide⟩

/-- C6, amended: for every byte string and every mimetype string containing
no comma and no semicolon, containing a slash and no equals sign (such as
`image/png`), decoding the output of `to_data_uri` with `Bytes.from_data_uri`
recovers the data exactly and a `Bytes` resource whose `mimetype` equals the
original mimetype; likewise when the mimetype is omitted and sniffed from the
data (such as a PNG header).  For mimetypes with a comma the data itself is
corrupted (see the counterexample), so the unrestricted
quantification fails. -/
theorem C6_data_uri_roundtrip :
    ∀ (data : List Nat) (mt uuid : String) (uri : List Char),
    (∀ b ∈ data, b < 256) →
    hasChar ',' mt.toList = false → hasChar ';' mt.toList = false →
    hasChar '/' mt.toList = true → hasChar '=' mt.toList = false →
    (to_data_uri data (some mt) = .ok uri →
      from_data_uri uri none uuid =
        .ok (mkBytes (.flat data)
          (generate_filename_from_details (some mt) none (some data) uuid)
          (some mt) false)) ∧
    (guess_mimetype_from_data data = some mt → to_data_uri data none = .ok uri →
      from_data_uri uri none uuid =
        .ok (mkBytes (.flat data)
          (generate_filename_from_details (some mt) none (some data) uuid)
          (some mt) false)) := by
  intro data mt uuid uri h256 h1 h2 h3 h4
  constructor
  · intro henc
    have huri : ("data:".toList ++
        (mt.toList ++ (";base64,".toList ++ b64encode data))) = uri := by
      exact Except.ok.inj henc
    rw [← huri]
    exact from_data_uri_to_data_uri data mt uuid h256 h1 h2 h3 h4
  · intro hg henc
    have henc' : to_data_uri data none =
        .ok ("data:".toList ++ (mt.toList ++ (";base64,".toList ++ b64encode data))) := by
      unfold to_data_uri
      rw [hg]
    have huri : ("data:".toList ++
        (mt.toList ++ (";base64,".toList ++ b64encode data))) = uri := by
      rw [henc'] at henc
      exact Except.ok.inj henc
    rw [← huri]
    exact from_data_uri_to_data_uri data mt uuid h256 h1 h2 h3 h4

theorem C6_data_uri_roundtrip_witness :
    from_data_uri ("data:".toList ++ ("image/png".toList ++
        (";base64,".toList ++ b64encode [137, 80, 78, 71, 13, 10, 26, 10])))
      none "u" =
      .ok (mkBytes (.flat [137, 80, 78, 71, 13, 10, 26, 10])
        (generate_filename_from_details (some "image/png") none
          (some [137, 80, 78, 71, 13, 10, 26, 10]) "u")
        (some "image/png") false) :=
  (C6_data_uri_roundtrip [137, 80, 78, 71, 13, 10, 26, 10] "image/png" "u"
    ("data:".toList ++ ("image/png".toList ++
      (";base64,".toList ++ b64encode [137, 80, 78, 71, 13, 10, 26, 10])))
    (by decide) (by decide) (by decide) (by decide) (by decide)).1 rfl

end HikariFiles
